import Mathlib

/-
Verification of the DHT token manager and contact store of lbry.go
(`dht/token_manager.go`, `dht/store.go`) against their specification.

The Go code is shallowly embedded: byte strings are `List Nat`, SHA-256 is
implemented from FIPS 180-4 (as Go's `crypto/sha256` is), the bytes produced
by `crypto/rand.Read` are passed as explicit parameters, and wall-clock
instants (`time.Time`) are integers passed to each operation.  Go maps are
association lists whose update keeps the first occurrence of a key in place,
so lookups always see the most recent write.
-/

namespace Dht

/-! ## SHA-256 (FIPS 180-4), byte-level, executable -/

/-- Right rotation of a 32-bit word. -/
def rotr (n x : Nat) : Nat := ((x >>> n) ||| (x <<< (32 - n))) % 2 ^ 32

def ssig0 (x : Nat) : Nat := rotr 7 x ^^^ rotr 18 x ^^^ (x >>> 3)

def ssig1 (x : Nat) : Nat := rotr 17 x ^^^ rotr 19 x ^^^ (x >>> 10)

def bsig0 (x : Nat) : Nat := rotr 2 x ^^^ rotr 13 x ^^^ rotr 22 x

def bsig1 (x : Nat) : Nat := rotr 6 x ^^^ rotr 11 x ^^^ rotr 25 x

def ch (x y z : Nat) : Nat := (x &&& y) ^^^ ((x ^^^ 0xffffffff) &&& z)

def maj (x y z : Nat) : Nat := (x &&& y) ^^^ (x &&& z) ^^^ (y &&& z)

/-- The eight working variables / hash state words of SHA-256. -/
structure S8 where
  a : Nat
  b : Nat
  c : Nat
  d : Nat
  e : Nat
  f : Nat
  g : Nat
  h : Nat
deriving DecidableEq

/-- SHA-256 initial hash value (FIPS 180-4 §5.3.3, written in decimal). -/
def iv : S8 :=
  ⟨1779033703, 3144134277, 1013904242, 2773480762,
   1359893119, 2600822924, 528734635, 1541459225⟩

/-- SHA-256 round constants (FIPS 180-4 §4.2.2, written in decimal). -/
def K : List Nat :=
  [1116352408, 1899447441, 3049323471, 3921009573, 961987163,
   1508970993, 2453635748, 2870763221, 3624381080, 310598401,
   607225278, 1426881987, 1925078388, 2162078206, 2614888103,
   3248222580, 3835390401, 4022224774, 264347078, 604807628,
   770255983, 1249150122, 1555081692, 1996064986, 2554220882,
   2821834349, 2952996808, 3210313671, 3336571891, 3584528711,
   113926993, 338241895, 666307205, 773529912, 1294757372,
   1396182291, 1695183700, 1986661051, 2177026350, 2456956037,
   2730485921, 2820302411, 3259730800, 3345764771, 3516065817,
   3600352804, 4094571909, 275423344, 430227734, 506948616,
   659060556, 883997877, 958139571, 1322822218, 1537002063,
   1747873779, 1955562222, 2024104815, 2227730452, 2361852424,
   2428436474, 2756734187, 3204031479, 3329325298]

/-- Big-endian 64-bit encoding of the bit length of a message of `L` bytes. -/
def lenBytes (L : Nat) : List Nat :=
  let b := 8 * L
  [b / 2 ^ 56 % 256, b / 2 ^ 48 % 256, b / 2 ^ 40 % 256, b / 2 ^ 32 % 256,
   b / 2 ^ 24 % 256, b / 2 ^ 16 % 256, b / 2 ^ 8 % 256, b % 256]

/-- SHA-256 padding: append `0x80`, zeros to 56 mod 64, then the bit length. -/
def pad (msg : List Nat) : List Nat :=
  msg ++ 128 :: (List.replicate ((64 - (msg.length + 9) % 64) % 64) 0 ++ lenBytes msg.length)

/-- Group bytes into big-endian 32-bit words. -/
def toWords : List Nat → List Nat
  | b0 :: b1 :: b2 :: b3 :: rest =>
      (b0 * 2 ^ 24 + b1 * 2 ^ 16 + b2 * 2 ^ 8 + b3) % 2 ^ 32 :: toWords rest
  | _ => []

/-- One step of the message-schedule extension; `acc` holds the words produced
so far, most recent first. -/
def wstep (acc : List Nat) : List Nat :=
  ((ssig1 (acc.getD 1 0) + acc.getD 6 0 + ssig0 (acc.getD 14 0) + acc.getD 15 0) % 2 ^ 32) :: acc

/-- The 64-word message schedule of one 16-word block. -/
def schedule (block : List Nat) : List Nat :=
  ((List.range 48).foldl (fun acc _ => wstep acc) block.reverse).reverse

/-- One SHA-256 round, consuming one `(constant, scheduled word)` pair. -/
def round (s : S8) (kw : Nat × Nat) : S8 :=
  let t1 := (s.h + bsig1 s.e + ch s.e s.f s.g + kw.1 + kw.2) % 2 ^ 32
  let t2 := (bsig0 s.a + maj s.a s.b s.c) % 2 ^ 32
  ⟨(t1 + t2) % 2 ^ 32, s.a, s.b, s.c, (s.d + t1) % 2 ^ 32, s.e, s.f, s.g⟩

/-- Compress one 16-word block into the running hash state. -/
def compress (hs : S8) (block : List Nat) : S8 :=
  let t := (K.zip (schedule block)).foldl round hs
  ⟨(hs.a + t.a) % 2 ^ 32, (hs.b + t.b) % 2 ^ 32, (hs.c + t.c) % 2 ^ 32, (hs.d + t.d) % 2 ^ 32,
   (hs.e + t.e) % 2 ^ 32, (hs.f + t.f) % 2 ^ 32, (hs.g + t.g) % 2 ^ 32, (hs.h + t.h) % 2 ^ 32⟩

/-- Fold the compression function over the padded word stream, 16 words at a
time. -/
def processBlocks : S8 → List Nat → S8
  | hs, w0 :: w1 :: w2 :: w3 :: w4 :: w5 :: w6 :: w7 ::
        w8 :: w9 :: w10 :: w11 :: w12 :: w13 :: w14 :: w15 :: rest =>
      processBlocks
        (compress hs [w0, w1, w2, w3, w4, w5, w6, w7, w8, w9, w10, w11, w12, w13, w14, w15]) rest
  | hs, _ => hs

/-- Big-endian bytes of a 32-bit word. -/
def word2bytes (w : Nat) : List Nat :=
  [w / 2 ^ 24 % 256, w / 2 ^ 16 % 256, w / 2 ^ 8 % 256, w % 256]

/-- SHA-256 of a byte string, as a 32-byte string. -/
def sha256 (msg : List Nat) : List Nat :=
  let t := processBlocks iv (toWords (pad msg))
  word2bytes t.a ++ word2bytes t.b ++ word2bytes t.c ++ word2bytes t.d ++
  word2bytes t.e ++ word2bytes t.f ++ word2bytes t.g ++ word2bytes t.h

theorem sha256_length (msg : List Nat) : (sha256 msg).length = 32 := by
  simp [sha256, word2bytes]

theorem word2bytes_lt {x w : Nat} (hx : x ∈ word2bytes w) : x < 256 := by
  simp only [word2bytes, List.mem_cons, List.not_mem_nil, or_false] at hx
  rcases hx with h | h | h | h <;> subst h <;> exact Nat.mod_lt _ (by norm_num)

theorem sha256_mem_lt {msg : List Nat} {x : Nat} (hx : x ∈ sha256 msg) : x < 256 := by
  simp only [sha256, List.mem_append] at hx
  rcases hx with ((((((h | h) | h) | h) | h) | h) | h) | h <;> exact word2bytes_lt h

theorem sha256_getD_lt (msg : List Nat) (i : Nat) : (sha256 msg).getD i 0 < 256 := by
  rcases h : (sha256 msg)[i]? with _ | x
  · simp [List.getD, h]
  · have hmem : x ∈ sha256 msg := List.getElem?_mem h
    simpa [List.getD, h] using sha256_mem_lt hmem

/-! ## Token manager (`dht/token_manager.go`)

`bits.Bitmap` is a 48-byte node id; it is embedded as a byte list (the
theorems below hold for byte lists of any length, which subsumes the 48-byte
case).  `net.UDPAddr` keeps the fields `genToken` reads: the IP bytes and the
port.  `crypto/rand.Read` is nondeterministic, so the bytes it delivers are an
explicit argument of `rotateSecret` and `start`.  The `lock`, `stop` and
`tokenUpdateCh` fields carry no data relevant to the claims (`tokenUpdateCh`
is nil for managers built by `Start`). -/

abbrev Bitmap := List Nat

structure UDPAddr where
  ip : List Nat
  port : Nat
deriving DecidableEq

structure tokenManager where
  secret : List Nat
  prevSecret : List Nat
deriving DecidableEq

/-- Model of `strconv.Itoa` on a natural number: ASCII decimal digits.  Fuel-based so
that the kernel can evaluate it. -/
def itoaAux : Nat → Nat → List Nat
  | 0, _ => []
  | fuel + 1, n => if n < 10 then [n + 48] else itoaAux fuel (n / 10) ++ [n % 10 + 48]

def itoa (n : Nat) : List Nat := itoaAux (n + 1) n

/-- The function `genToken`: SHA-256 of nodeID ∥ addr.IP ∥ Itoa(addr.Port) ∥ secret. -/
def genToken (secret : List Nat) (nodeID : Bitmap) (addr : UDPAddr) : List Nat :=
  sha256 (nodeID ++ addr.ip ++ itoa addr.port ++ secret)

/-- Method `tokenManager.Get`: the token derived from the current secret. -/
def tmGet (tm : tokenManager) (nodeID : Bitmap) (addr : UDPAddr) : List Nat :=
  genToken tm.secret nodeID addr

/-- Method `tokenManager.Verify`: token equality against either derivation. -/
def tmVerify (tm : tokenManager) (token : List Nat) (nodeID : Bitmap) (addr : UDPAddr) : Bool :=
  decide (token = genToken tm.secret nodeID addr) ||
  decide (token = genToken tm.prevSecret nodeID addr)

/-- Go's `copy(dst, src)`: overwrite the first `min |dst| |src|` bytes of
`dst` with those of `src`, keeping the rest of `dst`. -/
def goCopy (dst src : List Nat) : List Nat :=
  src.take dst.length ++ dst.drop src.length

/-- Method `tokenManager.rotateSecret`, with `r` the bytes `crypto/rand.Read` puts
into `tm.secret`: first `copy(prevSecret, secret)`, then refill `secret`. -/
def rotateSecret (r : List Nat) (tm : tokenManager) : tokenManager :=
  { prevSecret := goCopy tm.prevSecret tm.secret,
    secret := goCopy tm.secret r }

/-- Method `tokenManager.Start` up to (and excluding) the first ticker tick: when the
secret is not 64 bytes long, allocate zeroed 64-byte `secret` and `prevSecret`
and call `rotateSecret` once; `r` is the randomness that call consumes. -/
def start (r : List Nat) (tm : tokenManager) : tokenManager :=
  if tm.secret.length ≠ 64 then
    rotateSecret r { secret := List.replicate 64 0, prevSecret := List.replicate 64 0 }
  else tm

theorem goCopy_eq_src {dst src : List Nat} (h : dst.length = src.length) :
    goCopy dst src = src := by
  simp [goCopy, h, List.take_length, List.drop_length]

theorem rotateSecret_eq {r : List Nat} {tm : tokenManager}
    (hp : tm.prevSecret.length = 64) (hs : tm.secret.length = 64) (hr : r.length = 64) :
    rotateSecret r tm = ⟨r, tm.secret⟩ := by
  simp only [rotateSecret]
  rw [goCopy_eq_src (by rw [hs, hr]), goCopy_eq_src (by rw [hp, hs])]

theorem genToken_length (secret : List Nat) (nodeID : Bitmap) (addr : UDPAddr) :
    (genToken secret nodeID addr).length = 32 :=
  sha256_length _

theorem genToken_getD_lt (secret : List Nat) (nodeID : Bitmap) (addr : UDPAddr) (i : Nat) :
    (genToken secret nodeID addr).getD i 0 < 256 :=
  sha256_getD_lt _ _

/-- Sanity: `itoa` produces the ASCII decimal digits, e.g. of the default
port 4444 and of 0. -/
theorem itoa_samples : itoa 4444 = [52, 52, 52, 52] ∧ itoa 0 = [48] := by decide

/-- C7: `tokenManager.Verify` returns true iff the token equals the
derivation of `(nodeID, addr)` under the current secret or under the
previous secret. -/
theorem verify_iff_current_or_prev (tm : tokenManager) (token : List Nat)
    (nodeID : Bitmap) (addr : UDPAddr) :
    tmVerify tm token nodeID addr = true ↔
      token = genToken tm.secret nodeID addr ∨ token = genToken tm.prevSecret nodeID addr := by
  simp [tmVerify]

/-- C8: `tokenManager.Get` returns the 32-byte value
SHA-256(nodeID ∥ ip ∥ ascii-decimal port ∥ current secret). -/
theorem get_token_sha256 (tm : tokenManager) (nodeID : Bitmap) (addr : UDPAddr) :
    tmGet tm nodeID addr = sha256 (nodeID ++ addr.ip ++ itoa addr.port ++ tm.secret) ∧
    (tmGet tm nodeID addr).length = 32 :=
  ⟨rfl, sha256_length _⟩

/-- The proposition of claim C2: `Start` on an uninitialized manager leaves
both `secret` and `prevSecret` as fresh 64-byte random values, neither being
all-zero (given that the random bytes delivered are not themselves all-zero).
-/
def startSeedsBothRandom : Prop :=
  ∀ (r : List Nat) (tm : tokenManager),
    tm.secret.length ≠ 64 → r.length = 64 → r ≠ List.replicate 64 0 →
      (start r tm).secret.length = 64 ∧ (start r tm).prevSecret.length = 64 ∧
      (start r tm).secret ≠ List.replicate 64 0 ∧ (start r tm).prevSecret ≠ List.replicate 64 0

/-- C2 counterexample: `Start` zeroes both buffers and rotates once, so the
previous secret is the all-zero string until the first tick, even though the
randomness delivered was not all-zero. -/
theorem start_prev_zero_cex :
    ¬ startSeedsBothRandom ∧
    (start (List.replicate 64 7) ⟨[], []⟩).prevSecret = List.replicate 64 0 := by
  constructor
  · intro hclaim
    have h := hclaim (List.replicate 64 7) ⟨[], []⟩ (by decide) (by decide) (by decide)
    exact h.2.2.2 (by decide)
  · decide

/-- C2 amended: `Start` on a manager whose secret is not 64 bytes long sets
the current secret to the 64 fresh random bytes and the previous secret to
the all-zero 64-byte string; only the current secret is seeded with
randomness before the first tick. -/
theorem start_seeds_secret_only (r : List Nat) (tm : tokenManager)
    (huninit : tm.secret.length ≠ 64) (hr : r.length = 64) :
    (start r tm).secret = r ∧ (start r tm).prevSecret = List.replicate 64 0 ∧
    (start r tm).secret.length = 64 ∧ (start r tm).prevSecret.length = 64 := by
  simp only [start, if_pos huninit]
  rw [rotateSecret_eq (by simp) (by simp) hr]
  exact ⟨rfl, rfl, hr, by simp⟩

theorem start_seeds_secret_only_witness :
    (start (List.replicate 64 7) ⟨[], []⟩).secret = List.replicate 64 7 ∧
    (start (List.replicate 64 7) ⟨[], []⟩).prevSecret = List.replicate 64 0 ∧
    (start (List.replicate 64 7) ⟨[], []⟩).secret.length = 64 ∧
    (start (List.replicate 64 7) ⟨[], []⟩).prevSecret.length = 64 :=
  start_seeds_secret_only (List.replicate 64 7) ⟨[], []⟩ (by decide) (by decide)

/-- The proposition of claim C1: for every node id and address, the token
from `Get` verifies immediately, still verifies after one `rotateSecret`
step, and no longer verifies after two, assuming only that each freshly
generated 64-byte secret differs from the secret the token was derived
from. -/
def tokenRotationSecretsDiffer : Prop :=
  ∀ (nodeID : Bitmap) (addr : UDPAddr) (s0 p0 r1 r2 : List Nat),
    s0.length = 64 → p0.length = 64 → r1.length = 64 → r2.length = 64 →
    r1 ≠ s0 → r2 ≠ s0 →
      tmVerify ⟨s0, p0⟩ (tmGet ⟨s0, p0⟩ nodeID addr) nodeID addr = true ∧
      tmVerify (rotateSecret r1 ⟨s0, p0⟩) (tmGet ⟨s0, p0⟩ nodeID addr) nodeID addr = true ∧
      tmVerify (rotateSecret r2 (rotateSecret r1 ⟨s0, p0⟩)) (tmGet ⟨s0, p0⟩ nodeID addr)
        nodeID addr = false

/-- A 64-byte secret drawn from a function on `Fin`. -/
def enc (s : Fin 64 → Fin 256) : List Nat := (List.ofFn s).map Fin.val

theorem enc_injective : Function.Injective enc := by
  intro a b hab
  exact List.ofFn_injective (List.map_injective_iff.mpr Fin.val_injective hab)

theorem enc_length (s : Fin 64 → Fin 256) : (enc s).length = 64 := by
  simp [enc]

/-- C1 counterexample: distinct fresh secrets do not force distinct tokens.
Since SHA-256 maps the `2 ^ 512` possible 64-byte secrets (for a fixed id and
address) onto at most `2 ^ 256` digests, two distinct secrets share a token;
rotating twice with such a colliding fresh secret leaves the old token
verifying. -/
theorem secrets_differ_insufficient : ¬ tokenRotationSecretsDiffer := by
  intro hclaim
  set idc : Bitmap := List.replicate 48 0 with hidc
  set addrc : UDPAddr := ⟨[127, 0, 0, 1], 4444⟩ with haddrc
  have hcard : Fintype.card (Fin 32 → Fin 256) < Fintype.card (Fin 64 → Fin 256) := by
    simp only [Fintype.card_fun, Fintype.card_fin]
    exact Nat.pow_lt_pow_right (by norm_num) (by norm_num)
  obtain ⟨s, s', hne, heq⟩ := Fintype.exists_ne_map_eq_of_card_lt
    (fun (s : Fin 64 → Fin 256) (i : Fin 32) =>
      (⟨(genToken (enc s) idc addrc).getD i 0, genToken_getD_lt _ _ _ _⟩ : Fin 256)) hcard
  have htok : genToken (enc s) idc addrc = genToken (enc s') idc addrc := by
    apply List.ext_getElem (by rw [genToken_length, genToken_length])
    intro i h1 h2
    have hi : i < 32 := by rw [genToken_length] at h1; exact h1
    have hv := congrArg Fin.val (congrFun heq ⟨i, hi⟩)
    simpa [List.getD, List.getElem?_eq_getElem, h1, h2] using hv
  have hne' : enc s' ≠ enc s := fun h => hne (enc_injective h.symm)
  have h3 := (hclaim idc addrc (enc s) (List.replicate 64 0) (enc s') (enc s')
    (enc_length s) (by simp) (enc_length s') (enc_length s') hne' hne').2.2
  have e1 : rotateSecret (enc s') ⟨enc s, List.replicate 64 0⟩ = ⟨enc s', enc s⟩ :=
    rotateSecret_eq (by simp) (enc_length s) (enc_length s')
  have e2 : rotateSecret (enc s') (⟨enc s', enc s⟩ : tokenManager) = ⟨enc s', enc s'⟩ :=
    rotateSecret_eq (enc_length s) (enc_length s') (enc_length s')
  rw [e1, e2] at h3
  have hver : tmVerify ⟨enc s', enc s'⟩ (tmGet ⟨enc s, List.replicate 64 0⟩ idc addrc)
      idc addrc = true := by
    simp [tmVerify, tmGet, htok]
  rw [hver] at h3
  cases h3

/-- C1 amended: the token verifies immediately and after one `rotateSecret`
step; it no longer verifies after two steps provided each fresh secret
derives a token (for that id and address) different from the original token
— secrets merely differing is not sufficient, since SHA-256 is not injective
on the 64-byte secrets for a fixed id and address. -/
theorem token_rotation_window (nodeID : Bitmap) (addr : UDPAddr) (s0 p0 r1 r2 : List Nat)
    (hp0 : p0.length = 64) (hs0 : s0.length = 64) (hr1 : r1.length = 64) (hr2 : r2.length = 64)
    (h1 : genToken r1 nodeID addr ≠ genToken s0 nodeID addr)
    (h2 : genToken r2 nodeID addr ≠ genToken s0 nodeID addr) :
    tmVerify ⟨s0, p0⟩ (tmGet ⟨s0, p0⟩ nodeID addr) nodeID addr = true ∧
    tmVerify (rotateSecret r1 ⟨s0, p0⟩) (tmGet ⟨s0, p0⟩ nodeID addr) nodeID addr = true ∧
    tmVerify (rotateSecret r2 (rotateSecret r1 ⟨s0, p0⟩)) (tmGet ⟨s0, p0⟩ nodeID addr)
      nodeID addr = false := by
  rw [rotateSecret_eq hp0 hs0 hr1, rotateSecret_eq hs0 hr1 hr2]
  refine ⟨by simp [tmVerify, tmGet], by simp [tmVerify, tmGet], ?_⟩
  simp [tmVerify, tmGet, Ne.symm h1, Ne.symm h2]

def wid : Bitmap := List.replicate 48 0

def waddr : UDPAddr := ⟨[127, 0, 0, 1], 4444⟩

def ws0 : List Nat := List.replicate 64 0

def wr1 : List Nat := List.replicate 64 1

def wr2 : List Nat := List.replicate 64 2

set_option maxHeartbeats 2000000 in
theorem token_rotation_window_witness :
    tmVerify ⟨ws0, ws0⟩ (tmGet ⟨ws0, ws0⟩ wid waddr) wid waddr = true ∧
    tmVerify (rotateSecret wr1 ⟨ws0, ws0⟩) (tmGet ⟨ws0, ws0⟩ wid waddr) wid waddr = true ∧
    tmVerify (rotateSecret wr2 (rotateSecret wr1 ⟨ws0, ws0⟩)) (tmGet ⟨ws0, ws0⟩ wid waddr)
      wid waddr = false :=
  token_rotation_window wid waddr ws0 ws0 wr1 wr2 (by decide) (by decide) (by decide)
    (by decide) (by decide) (by decide)

/-! ## Contact store (`dht/store.go`)

Go maps are embedded as association lists with at most one entry per key:
writing to a present key updates its entry in place, writing to an absent key
appends.  Lookups scan from the front, so they always see the most recent
write.  Iteration visits the entries in list order (Go's iteration order is
unspecified; the claims below are order-insensitive).  `time.Time` instants
are integers handed to each operation (`time.Now()` is the `now` argument,
`time.Since ts` is `now - ts`), and `tExpire` — whose definition is commented
out of `config.go` and lives outside these sources — is a parameter.  The
`panic` branch of `Get` is embedded as `Option.none`. -/

structure Contact where
  id : Bitmap
  ip : List Nat
  port : Nat
deriving DecidableEq

section AList

variable {κ α β : Type} [DecidableEq κ]

/-- Go map read: first entry with the key. -/
def mget : List (κ × α) → κ → Option α
  | [], _ => none
  | (k, v) :: rest, q => if k = q then some v else mget rest q

/-- Go map write `m[q] = v`: update in place, or append when absent. -/
def mset : List (κ × α) → κ → α → List (κ × α)
  | [], q, v => [(q, v)]
  | (k, w) :: rest, q, v => if k = q then (q, v) :: rest else (k, w) :: mset rest q v

theorem mget_mem {l : List (κ × α)} {q : κ} {v : α} (h : mget l q = some v) : (q, v) ∈ l := by
  induction l with
  | nil => simp [mget] at h
  | cons hd tl ih =>
    obtain ⟨k, w⟩ := hd
    by_cases hk : k = q
    · subst hk
      simp [mget] at h
      simp [h]
    · simp only [mget, if_neg hk] at h
      exact List.mem_cons_of_mem _ (ih h)

theorem mem_keys_of_mget {l : List (κ × α)} {q : κ} {v : α} (h : mget l q = some v) :
    q ∈ l.map Prod.fst :=
  List.mem_map.mpr ⟨(q, v), mget_mem h, rfl⟩

theorem mget_eq_none {l : List (κ × α)} {q : κ} (h : q ∉ l.map Prod.fst) : mget l q = none := by
  induction l with
  | nil => rfl
  | cons hd tl ih =>
    obtain ⟨k, w⟩ := hd
    simp only [List.map_cons, List.mem_cons, not_or] at h
    simp only [mget, if_neg (fun hk : k = q => h.1 hk.symm)]
    exact ih h.2

theorem mget_of_mem_nodup {l : List (κ × α)} {q : κ} {v : α}
    (hn : (l.map Prod.fst).Nodup) (h : (q, v) ∈ l) : mget l q = some v := by
  induction l with
  | nil => simp at h
  | cons hd tl ih =>
    obtain ⟨k, w⟩ := hd
    simp only [List.map_cons, List.nodup_cons] at hn
    rcases List.mem_cons.mp h with h1 | h1
    · obtain ⟨rfl, rfl⟩ := Prod.ext_iff.mp h1
      simp [mget]
    · have hk : k ≠ q := by
        intro hk
        exact hn.1 (hk ▸ List.mem_map.mpr ⟨(q, v), h1, rfl⟩)
      simp only [mget, if_neg hk]
      exact ih hn.2 h1

theorem mem_mset {l : List (κ × α)} {q : κ} {v : α} {p : κ × α} (h : p ∈ mset l q v) :
    p = (q, v) ∨ p ∈ l := by
  induction l with
  | nil => simpa [mset] using h
  | cons hd tl ih =>
    obtain ⟨k, w⟩ := hd
    by_cases hk : k = q
    · subst hk
      simp only [mset, if_true, eq_self_iff_true, List.mem_cons] at h
      rcases h with h | h
      · exact .inl h
      · exact .inr (List.mem_cons_of_mem _ h)
    · simp only [mset, if_neg hk, List.mem_cons] at h
      rcases h with h | h
      · exact .inr (h ▸ List.mem_cons_self _ _)
      · rcases ih h with h1 | h1
        · exact .inl h1
        · exact .inr (List.mem_cons_of_mem _ h1)

theorem mset_keys_sub {l : List (κ × α)} {q : κ} {v : α} :
    ((mset l q v).map Prod.fst) ⊆ q :: l.map Prod.fst := by
  induction l with
  | nil => simp [mset]
  | cons hd tl ih =>
    obtain ⟨k, w⟩ := hd
    by_cases hk : k = q
    · subst hk
      simp only [mset, if_true, eq_self_iff_true, List.map_cons]
      intro x hx
      rcases List.mem_cons.mp hx with h | h
      · simp [h]
      · simp [h]
    · simp only [mset, if_neg hk, List.map_cons]
      intro x hx
      rcases List.mem_cons.mp hx with h | h
      · simp [h]
      · rcases List.mem_cons.mp (ih h) with h1 | h1
        · simp [h1]
        · simp [h1]

theorem mset_keys_nodup {l : List (κ × α)} {q : κ} {v : α}
    (hn : (l.map Prod.fst).Nodup) : ((mset l q v).map Prod.fst).Nodup := by
  induction l with
  | nil => simp [mset]
  | cons hd tl ih =>
    obtain ⟨k, w⟩ := hd
    simp only [List.map_cons, List.nodup_cons] at hn
    by_cases hk : k = q
    · subst hk
      simpa [mset, List.nodup_cons] using hn
    · simp only [mset, if_neg hk, List.map_cons, List.nodup_cons]
      refine ⟨fun hmem => ?_, ih hn.2⟩
      rcases List.mem_cons.mp (mset_keys_sub hmem) with h | h
      · exact hk h
      · exact hn.1 h

theorem mget_mset_self {l : List (κ × α)} {q : κ} {v : α} : mget (mset l q v) q = some v := by
  induction l with
  | nil => simp [mset, mget]
  | cons hd tl ih =>
    obtain ⟨k, w⟩ := hd
    by_cases hk : k = q
    · subst hk
      simp [mset, mget]
    · simp [mset, mget, hk, ih]

theorem mget_mset_ne {l : List (κ × α)} {q k : κ} {v : α} (h : k ≠ q) :
    mget (mset l q v) k = mget l k := by
  induction l with
  | nil => simp [mset, mget, Ne.symm h]
  | cons hd tl ih =>
    obtain ⟨k', w⟩ := hd
    by_cases hk : k' = q
    · subst hk
      simp [mset, mget, Ne.symm h]
    · simp only [mset, if_neg hk, mget, ih]

theorem mget_map_snd (f : α → β) (l : List (κ × α)) (q : κ) :
    mget (l.map (fun p => (p.1, f p.2))) q = (mget l q).map f := by
  induction l with
  | nil => simp [mget]
  | cons hd tl ih =>
    obtain ⟨k, w⟩ := hd
    by_cases hk : k = q <;> simp [mget, hk, ih]

theorem mget_filter {l : List (κ × α)} (pr : κ × α → Bool) {q : κ}
    (hn : (l.map Prod.fst).Nodup) :
    mget (l.filter pr) q = (mget l q).bind (fun v => if pr (q, v) then some v else none) := by
  induction l with
  | nil => simp [mget]
  | cons hd tl ih =>
    obtain ⟨k, w⟩ := hd
    simp only [List.map_cons, List.nodup_cons] at hn
    by_cases hk : k = q
    · subst hk
      by_cases hp : pr (k, w)
      · simp [List.filter_cons, hp, mget]
      · have hnone : mget (tl.filter pr) k = none := by
          apply mget_eq_none
          intro hmem
          exact hn.1 ((((List.filter_sublist tl).map Prod.fst).subset) hmem)
        simp [List.filter_cons, hp, mget, hnone]
    · by_cases hp : pr (k, w) <;>
        simp [List.filter_cons, hp, mget, hk, ih hn.2]

end AList

structure contactStore where
  hashes : List (Bitmap × List (Bitmap × Int))
  contacts : List (Bitmap × Contact)
deriving DecidableEq

def newStore : contactStore := ⟨[], []⟩

/-- Method `contactStore.Upsert`: ensure the hash has an inner map, record `now`
for the contact's id, and store the contact. -/
def Upsert (now : Int) (s : contactStore) (blobHash : Bitmap) (contact : Contact) : contactStore :=
  let inner := (mget s.hashes blobHash).getD []
  { hashes := mset s.hashes blobHash (mset inner contact.id now),
    contacts := mset s.contacts contact.id contact }

/-- The loop body of `contactStore.Get`: walk the ids stored for the hash,
keep a contact when `time.Since(ts) < tExpire`, and abort (`none`, the
`panic` branch) when an id has no entry in the contacts map. -/
def getLoop (tExpire now : Int) (contacts : List (Bitmap × Contact))
    (idsFull : List (Bitmap × Int)) : List (Bitmap × Int) → Option (List Contact)
  | [] => some []
  | (id, _) :: rest =>
      if now - (mget idsFull id).getD 0 < tExpire then
        match mget contacts id with
        | none => none
        | some c => (getLoop tExpire now contacts idsFull rest).map (fun l => c :: l)
      else getLoop tExpire now contacts idsFull rest

/-- Method `contactStore.Get`. -/
def Get (tExpire now : Int) (s : contactStore) (blobHash : Bitmap) : Option (List Contact) :=
  match mget s.hashes blobHash with
  | none => some []
  | some ids => getLoop tExpire now s.contacts ids ids

/-- Method `contactStore.RemoveExpiredContacts`: delete, inside each hash's inner
map, every entry with `time.Since(ts) > tExpire`. -/
def RemoveExpiredContacts (tExpire now : Int) (s : contactStore) : contactStore :=
  { s with
    hashes := s.hashes.map (fun p => (p.1, p.2.filter (fun e => ! decide (now - e.2 > tExpire)))) }

/-- Method `contactStore.CountStoredHashes`: the number of keys of the hashes map. -/
def CountStoredHashes (s : contactStore) : Nat := s.hashes.length

/-- The stores reachable from `newStore` by the store's operations (`Get`
and `CountStoredHashes` are pure observers in this embedding and do not
change the state). -/
inductive Reachable : contactStore → Prop
  | base : Reachable newStore
  | upsert (now : Int) (blobHash : Bitmap) (contact : Contact) {s : contactStore} :
      Reachable s → Reachable (Upsert now s blobHash contact)
  | remove (tExpire now : Int) {s : contactStore} :
      Reachable s → Reachable (RemoveExpiredContacts tExpire now s)

/-- Well-formedness of a store: inner maps have no duplicate keys, every id
recorded under a hash has a contact, and contacts are stored under their own
id. -/
structure StoreWF (s : contactStore) : Prop where
  ikeys : ∀ p ∈ s.hashes, (p.2.map Prod.fst).Nodup
  cover : ∀ p ∈ s.hashes, ∀ e ∈ p.2, ∃ c, mget s.contacts e.1 = some c
  cid : ∀ id c, mget s.contacts id = some c → c.id = id

theorem wf_newStore : StoreWF newStore := by
  constructor <;> simp [newStore, mget]

theorem wf_upsert {s : contactStore} (hwf : StoreWF s) (now : Int) (blobHash : Bitmap)
    (contact : Contact) : StoreWF (Upsert now s blobHash contact) := by
  constructor
  · intro p hp
    rcases mem_mset hp with h | h
    · subst h
      apply mset_keys_nodup
      rcases hm : mget s.hashes blobHash with _ | inner
      · simp [hm]
      · simpa [hm] using hwf.ikeys _ (mget_mem hm)
    · exact hwf.ikeys _ h
  · intro p hp e he
    by_cases hid : e.1 = contact.id
    · exact ⟨contact, by simp [Upsert, hid, mget_mset_self]⟩
    · have hold : ∃ c, mget s.contacts e.1 = some c := by
        rcases mem_mset hp with h | h
        · subst h
          rcases mem_mset he with h1 | h1
          · exact absurd (congrArg Prod.fst h1) hid
          · rcases hm : mget s.hashes blobHash with _ | inner
            · simp [hm] at h1
            · exact hwf.cover _ (mget_mem hm) _ (by simpa [hm] using h1)
        · exact hwf.cover _ h _ he
      rcases hold with ⟨c, hc⟩
      exact ⟨c, by simpa [Upsert, mget_mset_ne hid] using hc⟩
  · intro id c hc
    simp only [Upsert] at hc
    by_cases hid : id = contact.id
    · subst hid
      rw [mget_mset_self] at hc
      cases hc
      rfl
    · rw [mget_mset_ne hid] at hc
      exact hwf.cid _ _ hc

theorem wf_remove {s : contactStore} (hwf : StoreWF s) (tExpire now : Int) :
    StoreWF (RemoveExpiredContacts tExpire now s) := by
  constructor
  · intro p hp
    simp only [RemoveExpiredContacts, List.mem_map] at hp
    rcases hp with ⟨p0, hp0, rfl⟩
    exact ((List.filter_sublist p0.2).map Prod.fst).nodup (hwf.ikeys _ hp0)
  · intro p hp e he
    simp only [RemoveExpiredContacts, List.mem_map] at hp
    rcases hp with ⟨p0, hp0, rfl⟩
    exact hwf.cover _ hp0 _ ((List.filter_sublist p0.2).subset he)
  · exact hwf.cid

theorem reachable_wf {s : contactStore} (hr : Reachable s) : StoreWF s := by
  induction hr with
  | base => exact wf_newStore
  | upsert now blobHash contact _ ih => exact wf_upsert ih now blobHash contact
  | remove tExpire now _ ih => exact wf_remove ih tExpire now

theorem getLoop_spec (tExpire now : Int) (contacts : List (Bitmap × Contact))
    (idsFull : List (Bitmap × Int)) (hnodup : (idsFull.map Prod.fst).Nodup)
    (hcid : ∀ id c, mget contacts id = some c → c.id = id) :
    ∀ rest : List (Bitmap × Int), rest ⊆ idsFull →
      (∀ e ∈ rest, ∃ c, mget contacts e.1 = some c) →
      ∃ l, getLoop tExpire now contacts idsFull rest = some l ∧
        ∀ c : Contact, c ∈ l ↔
          ∃ ts, (c.id, ts) ∈ rest ∧ now - ts < tExpire ∧ mget contacts c.id = some c := by
  intro rest
  induction rest with
  | nil =>
    intro _ _
    exact ⟨[], rfl, by simp⟩
  | cons hd tl ih =>
    intro hsub hcov
    obtain ⟨id, ts0⟩ := hd
    have hmem : (id, ts0) ∈ idsFull := hsub (List.mem_cons_self _ _)
    have hts : mget idsFull id = some ts0 := mget_of_mem_nodup hnodup hmem
    obtain ⟨l', hl', hiff⟩ := ih (fun x hx => hsub (List.mem_cons_of_mem _ hx))
      (fun e he => hcov e (List.mem_cons_of_mem _ he))
    obtain ⟨c0, hc0p⟩ := hcov (id, ts0) (List.mem_cons_self _ _)
    have hc0 : mget contacts id = some c0 := hc0p
    have hc0id : c0.id = id := hcid _ _ hc0
    by_cases hcond : now - ts0 < tExpire
    · refine ⟨c0 :: l', ?_, ?_⟩
      · simp [getLoop, hts, hcond, hc0, hl']
      · intro c
        constructor
        · intro hc
          rcases List.mem_cons.mp hc with heq | hc
          · subst heq
            refine ⟨ts0, ?_, hcond, ?_⟩
            · rw [hc0id]
              exact List.mem_cons_self _ _
            · rw [hc0id]
              exact hc0
          · obtain ⟨ts, h1, h2, h3⟩ := (hiff c).mp hc
            exact ⟨ts, List.mem_cons_of_mem _ h1, h2, h3⟩
        · rintro ⟨ts, h1, h2, h3⟩
          rcases List.mem_cons.mp h1 with h4 | h4
          · have hq : c.id = id := congrArg Prod.fst h4
            rw [hq, hc0] at h3
            exact List.mem_cons.mpr (.inl (Option.some.inj h3).symm)
          · exact List.mem_cons.mpr (.inr ((hiff c).mpr ⟨ts, h4, h2, h3⟩))
    · refine ⟨l', ?_, ?_⟩
      · simp [getLoop, hts, hcond, hl']
      · intro c
        rw [hiff c]
        constructor
        · rintro ⟨ts, h1, h2, h3⟩
          exact ⟨ts, List.mem_cons_of_mem _ h1, h2, h3⟩
        · rintro ⟨ts, h1, h2, h3⟩
          rcases List.mem_cons.mp h1 with h4 | h4
          · have hv : ts = ts0 := congrArg Prod.snd h4
            rw [hv] at h2
            exact absurd h2 hcond
          · exact ⟨ts, h4, h2, h3⟩

/-- On any well-formed store, `Get` does not panic and returns exactly the
stored contacts whose recorded timestamp for the hash is fresh. -/
theorem get_spec {s : contactStore} (hwf : StoreWF s) (tExpire now : Int) (blobHash : Bitmap) :
    ∃ l, Get tExpire now s blobHash = some l ∧
      ∀ c : Contact, c ∈ l ↔
        ∃ m ts, mget s.hashes blobHash = some m ∧ mget m c.id = some ts ∧
          now - ts < tExpire ∧ mget s.contacts c.id = some c := by
  rcases hm : mget s.hashes blobHash with _ | ids
  · refine ⟨[], by simp [Get, hm], ?_⟩
    intro c
    simp [hm]
  · have hn : (ids.map Prod.fst).Nodup := hwf.ikeys _ (mget_mem hm)
    obtain ⟨l, hl, hiff⟩ := getLoop_spec tExpire now s.contacts ids hn hwf.cid ids
      (fun x hx => hx) (fun e he => hwf.cover _ (mget_mem hm) _ he)
    refine ⟨l, by simp [Get, hm, hl], ?_⟩
    intro c
    rw [hiff c]
    constructor
    · rintro ⟨ts, h1, h2, h3⟩
      exact ⟨ids, ts, rfl, mget_of_mem_nodup hn h1, h2, h3⟩
    · rintro ⟨m, ts, h1, h2, h3, h4⟩
      obtain rfl : ids = m := Option.some.inj h1
      exact ⟨ts, mget_mem h2, h3, h4⟩

/-- C3: in every store reachable by the store's operations, every contact id
recorded under a blob hash has an entry in the contacts map, so the `panic`
branch of `Get` (embedded as `none`) is unreachable. -/
theorem store_hashes_ids_have_contacts {s : contactStore} (hr : Reachable s) :
    (∀ p ∈ s.hashes, ∀ e ∈ p.2, ∃ c, mget s.contacts e.1 = some c) ∧
    ∀ tExpire now blobHash, Get tExpire now s blobHash ≠ none := by
  have hwf := reachable_wf hr
  refine ⟨hwf.cover, ?_⟩
  intro tExpire now blobHash
  obtain ⟨l, hl, _⟩ := get_spec hwf tExpire now blobHash
  simp [hl]

theorem store_hashes_ids_have_contacts_witness :
    Get 1 0 (Upsert 0 newStore [1] ⟨[9], [1, 2, 3, 4], 10⟩) [1] ≠ none :=
  (store_hashes_ids_have_contacts
    (Reachable.upsert 0 [1] ⟨[9], [1, 2, 3, 4], 10⟩ Reachable.base)).2 1 0 [1]

/-- C4: on a reachable store, `Get` succeeds and returns exactly the contacts
whose recorded timestamp for the hash satisfies `now - ts < tExpire`; a hash
with no stored entries yields `[]`; `Upsert` records `now` as the timestamp,
so an immediately following `Get` returns the upserted contact. -/
theorem get_returns_fresh_contacts {s : contactStore} (hr : Reachable s)
    (tExpire now : Int) (blobHash : Bitmap) (contact : Contact) (hpos : 0 < tExpire) :
    (∃ l, Get tExpire now s blobHash = some l ∧
      ∀ c : Contact, c ∈ l ↔
        ∃ m ts, mget s.hashes blobHash = some m ∧ mget m c.id = some ts ∧
          now - ts < tExpire ∧ mget s.contacts c.id = some c) ∧
    (mget s.hashes blobHash = none → Get tExpire now s blobHash = some []) ∧
    (∃ m, mget (Upsert now s blobHash contact).hashes blobHash = some m ∧
      mget m contact.id = some now) ∧
    (∃ l, Get tExpire now (Upsert now s blobHash contact) blobHash = some l ∧ contact ∈ l) := by
  have hwf := reachable_wf hr
  refine ⟨get_spec hwf tExpire now blobHash, ?_, ?_, ?_⟩
  · intro hm
    simp [Get, hm]
  · exact ⟨mset ((mget s.hashes blobHash).getD []) contact.id now,
      by simp [Upsert, mget_mset_self], mget_mset_self⟩
  · obtain ⟨l, hl, hiff⟩ := get_spec (wf_upsert hwf now blobHash contact) tExpire now blobHash
    refine ⟨l, hl, (hiff contact).mpr ?_⟩
    refine ⟨mset ((mget s.hashes blobHash).getD []) contact.id now, now, ?_,
      mget_mset_self, by omega, ?_⟩
    · simp [Upsert, mget_mset_self]
    · simp [Upsert, mget_mset_self]

theorem get_returns_fresh_contacts_witness :
    ∃ l, Get 5 0 (Upsert 0 newStore [3] ⟨[9], [1, 1, 1, 1], 8⟩) [3] = some l ∧
      (⟨[9], [1, 1, 1, 1], 8⟩ : Contact) ∈ l :=
  (get_returns_fresh_contacts Reachable.base 5 0 [3] ⟨[9], [1, 1, 1, 1], 8⟩ (by decide)).2.2.2

/-- C5: on a reachable store, `RemoveExpiredContacts` deletes exactly the
timestamp entries with `now - ts > tExpire` and keeps every other entry with
its timestamp unchanged. -/
theorem removeExpired_entry_iff {s : contactStore} (hr : Reachable s) (tExpire now : Int)
    (blobHash id : Bitmap) (ts : Int) :
    (mget (RemoveExpiredContacts tExpire now s).hashes blobHash).bind (fun m => mget m id)
        = some ts ↔
      ((mget s.hashes blobHash).bind (fun m => mget m id) = some ts ∧ ¬ now - ts > tExpire) := by
  have hwf := reachable_wf hr
  simp only [RemoveExpiredContacts]
  rw [mget_map_snd]
  rcases hm : mget s.hashes blobHash with _ | m
  · simp
  · simp only [Option.map_some', Option.some_bind]
    rw [mget_filter _ (hwf.ikeys _ (mget_mem hm))]
    rcases hq : mget m id with _ | v
    · simp
    · simp only [Option.some_bind]
      by_cases hp : now - v > tExpire
      · constructor
        · intro h
          simp [hp] at h
        · rintro ⟨h1, h2⟩
          obtain rfl : v = ts := Option.some.inj h1
          exact absurd hp h2
      · constructor
        · intro h
          simp only [hp, decide_False, Bool.not_false, if_true] at h
          obtain rfl : v = ts := Option.some.inj h
          exact ⟨rfl, hp⟩
        · rintro ⟨h1, h2⟩
          obtain rfl : v = ts := Option.some.inj h1
          simp [hp]

theorem removeExpired_entry_iff_witness :
    (mget (RemoveExpiredContacts 1 10
          (Upsert 0 newStore [1] ⟨[9], [1, 2, 3, 4], 10⟩)).hashes [1]).bind
        (fun m => mget m [9]) = some 0 ↔
      ((mget (Upsert 0 newStore [1] ⟨[9], [1, 2, 3, 4], 10⟩).hashes [1]).bind
        (fun m => mget m [9]) = some 0 ∧ ¬ (10 : Int) - 0 > 1) :=
  removeExpired_entry_iff
    (Reachable.upsert 0 [1] ⟨[9], [1, 2, 3, 4], 10⟩ Reachable.base) 1 10 [1] [9] 0

/-- C9: `RemoveExpiredContacts` never touches the contacts map, never removes
a blob-hash key from the hashes map, and therefore leaves
`CountStoredHashes` unchanged. -/
theorem removeExpired_frame (s : contactStore) (tExpire now : Int) :
    (RemoveExpiredContacts tExpire now s).contacts = s.contacts ∧
    (RemoveExpiredContacts tExpire now s).hashes.map Prod.fst = s.hashes.map Prod.fst ∧
    CountStoredHashes (RemoveExpiredContacts tExpire now s) = CountStoredHashes s := by
  refine ⟨rfl, ?_, ?_⟩
  · simp [RemoveExpiredContacts, List.map_map, Function.comp_def]
  · simp [CountStoredHashes, RemoveExpiredContacts]

/-- C10: the store keeps one `Contact` value per id, shared across hashes:
upserting `c'` (same id as `c`, different ip or port) under any hash makes a
fresh `Get` on `c`'s hash return `c'`, not `c`. -/
theorem upsert_shared_contact {s : contactStore} (hr : Reachable s) (h1 h2 : Bitmap)
    (c c' : Contact) (t1 t2 tExpire now : Int) (hid : c'.id = c.id) (hcc : c ≠ c')
    (hf1 : now - t1 < tExpire) (hf2 : now - t2 < tExpire) :
    ∃ l, Get tExpire now (Upsert t2 (Upsert t1 s h1 c) h2 c') h1 = some l ∧
      c' ∈ l ∧ c ∉ l := by
  have hwf2 := wf_upsert (wf_upsert (reachable_wf hr) t1 h1 c) t2 h2 c'
  obtain ⟨l, hl, hiff⟩ := get_spec hwf2 tExpire now h1
  refine ⟨l, hl, ?_, ?_⟩
  · apply (hiff c').mpr
    by_cases hh : h2 = h1
    · subst hh
      refine ⟨mset ((mget (Upsert t1 s h2 c).hashes h2).getD []) c'.id t2, t2, ?_,
        mget_mset_self, hf2, ?_⟩
      · simp [Upsert, mget_mset_self]
      · simp [Upsert, mget_mset_self]
    · refine ⟨mset ((mget s.hashes h1).getD []) c.id t1, t1, ?_, ?_, hf1, ?_⟩
      · simp [Upsert, mget_mset_ne (Ne.symm hh), mget_mset_self]
      · rw [hid]
        exact mget_mset_self
      · simp [Upsert, mget_mset_self]
  · intro hc
    obtain ⟨m, ts, hm1, hm2, hm3, hm4⟩ := (hiff c).mp hc
    rw [show (Upsert t2 (Upsert t1 s h1 c) h2 c').contacts
        = mset (Upsert t1 s h1 c).contacts c'.id c' from rfl] at hm4
    rw [← hid, mget_mset_self] at hm4
    exact hcc (Option.some.inj hm4).symm

theorem upsert_shared_contact_witness :
    ∃ l, Get 5 0 (Upsert 0 (Upsert 0 newStore [1] ⟨[9], [1, 2, 3, 4], 10⟩) [2]
        ⟨[9], [5, 6, 7, 8], 11⟩) [1] = some l ∧
      (⟨[9], [5, 6, 7, 8], 11⟩ : Contact) ∈ l ∧ (⟨[9], [1, 2, 3, 4], 10⟩ : Contact) ∉ l :=
  upsert_shared_contact Reachable.base [1] [2] ⟨[9], [1, 2, 3, 4], 10⟩ ⟨[9], [5, 6, 7, 8], 11⟩
    0 0 5 0 rfl (by decide) (by decide) (by decide)

/-! ## Lock usage of the store methods (`store.go`)

Transcription of the lock-acquisition calls: `Upsert` calls `s.lock.Lock()`
(exclusive); `Get`, `RemoveExpiredContacts` and `CountStoredHashes` call
`s.lock.RLock()` (shared). -/

inductive LockMode where
  | shared : LockMode
  | exclusive : LockMode
deriving DecidableEq

def upsertLockMode : LockMode := .exclusive

def getLockMode : LockMode := .shared

def removeExpiredLockMode : LockMode := .shared

def countStoredHashesLockMode : LockMode := .shared

/-- C6 (code bug): `Upsert` does take the exclusive writer lock, but
`RemoveExpiredContacts` takes only the shared reader lock while it mutates
the inner maps — shown here on a store where it actually deletes an entry,
changing the store. -/
theorem removeExpired_shared_lock_mutation :
    upsertLockMode = LockMode.exclusive ∧
    removeExpiredLockMode = LockMode.shared ∧
    removeExpiredLockMode ≠ LockMode.exclusive ∧
    RemoveExpiredContacts 1 10 (Upsert 0 newStore [1] ⟨[9], [1, 2, 3, 4], 10⟩) ≠
      Upsert 0 newStore [1] ⟨[9], [1, 2, 3, 4], 10⟩ :=
  ⟨rfl, rfl, by decide, by decide⟩

end Dht
